import Mathlib

/-!
A shallow embedding of `src/main.rs` of the simple_blockchain repository:
a minimal proof-of-work ledger.  Pure functions of the source become Lean
functions; the mutable `Blockchain` state becomes explicit state passing;
`u8` balances are `Nat` with wrapping arithmetic `% 256` (release-mode
semantics of the Rust `+=` / `-=` on `u8`); the two digest backends
(`sha2::Sha256` and `randomx_rs`, both external crates rendered as
lowercase hex) are abstracted as a function parameter `String → String`;
the unbounded nonce search loop is given explicit fuel, and panics
(`unwrap` on `None`, unsigned subtraction overflow) become `Except`
errors.  The `reproduce_blocks` configuration of the source is embedded,
where a block timestamp is its index rendered in decimal (the alternative
configuration reads the wall clock, which is outside a pure embedding).
-/

set_option maxRecDepth 40000

namespace SimpleBlockchain

/-- `struct Account { addr: String, bal: u8 }`. `bal` is kept below 256 by
the wrapping arithmetic of `update_bal`. -/
structure Account where
  addr : String
  bal : Nat
  deriving DecidableEq, Repr

/-- `struct Trasaction` (sic) with `timestamp: u128`, `value: u128` as `Nat`.
The Rust fields `from` and `to` are Lean keywords, embedded as `from_` and `to_`. -/
structure Trasaction where
  timestamp : Nat
  from_ : String
  to_ : String
  value : Nat
  data : String
  deriving DecidableEq, Repr

/-- `struct Block`. -/
structure Block where
  index : Nat
  timestamp : String
  data : String
  previous_hash : String
  hash : String
  btc_hash : String
  difficulty : Nat
  deriving DecidableEq, Repr

/-- `struct Blockchain` (the `vm` handle is part of the abstract digest
parameter and carries no state of its own). -/
structure Blockchain where
  balances : List Account
  chain : List Block
  deriving DecidableEq, Repr

/-- The `HASHES` constant: the fixed external reference-hash sequence. -/
def HASHES : List String :=
  [ "00000000000000000000ecfcf0073a9ae7fd9149d643fa462109f5b0777f5720"
  , "00000000000000000001924bab37e9d87715e84aa7bcd0b52405f893dfe7005f"
  , "000000000000000000031e67755d995d78beeb40ec0f4f0572b2a94a2cc5c6be"
  , "000000000000000000006898028bbd4e6e86d4e1613899353e7f61baebaacd47"
  , "00000000000000000001ec97d16e29a1aa5ae14dd4b5103098a0ec0ab7d6f407"
  , "0000000000000000000309eb0182d37508dcf8addde651be2f120037697151fd"
  , "000000000000000000004d8859f7cacd8834a8e0db41808307242593c746badb"
  , "0000000000000000000055e6c36555475a4bf88e62e34b71d4a677b8b0ea64aa" ]

/-- The `BALANCES` constant: seed `(address, balance)` pairs. -/
def BALANCES : List Account :=
  [ { addr := "Master", bal := 150 }, { addr := "Alice", bal := 20 } ]

/-- `Trasaction::hash`: the digest of
`format!("{}:{}:{}:{}:{}", timestamp, from, to, value, value)` — the
`value` field appears twice, `data` is not hashed.  The digest backend
(`Sha256` plus `format!("{:x}", result)` lowercase-hex rendering) is the
abstract parameter `sha`. -/
def Trasaction.hash (sha : String → String) (t : Trasaction) : String :=
  sha (toString t.timestamp ++ ":" ++ t.from_ ++ ":" ++ t.to_ ++ ":"
        ++ toString t.value ++ ":" ++ toString t.value)

/-- `Trasaction::to_str`: the `String::push_str` / `push` sequence of the
source, building `timestamp:from:to:value:data:hash;`. -/
def Trasaction.to_str (sha : String → String) (t : Trasaction) : String :=
  let d0 : String := ""
  let d1 := d0 ++ toString t.timestamp
  let d2 := d1.push ':'
  let d3 := d2 ++ t.from_
  let d4 := d3.push ':'
  let d5 := d4 ++ t.to_
  let d6 := d5.push ':'
  let d7 := d6 ++ toString t.value
  let d8 := d7.push ':'
  let d9 := d8 ++ t.data
  let d10 := d9.push ':'
  let d11 := d10 ++ t.hash sha
  d11.push ';'

/-- The header string of one nonce attempt in `Block::calculate_hash`:
`format!("{}{}{}{}{}", index, timestamp, data, previous_hash, nonce)` —
decimal renderings, no separators. -/
def hashInput (index : Nat) (timestamp data previous_hash : String)
    (nonce : Nat) : String :=
  toString index ++ timestamp ++ data ++ previous_hash ++ toString nonce

/-- Rust `str::ends_with(post)` — `post` is a byte suffix of `s`.  The core
function `String.endsWith` is defined by well-founded recursion, which the kernel
cannot evaluate, so the embedding uses the character-list suffix test;
for valid UTF-8 (here: ASCII hex strings) the two notions agree. -/
def strEndsWith (s post : String) : Bool := post.data.isSuffixOf s.data

/-- The `loop` of `Block::calculate_hash`, searching nonces upward from
`nonce` until the digest of the header ends with `trailing`.  The Rust
loop is unbounded; `fuel` bounds the embedding, `none` meaning the bound
was hit before a nonce was found. -/
def sealLoop (digest : String → String) (index : Nat)
    (timestamp data previous_hash trailing : String) :
    Nat → Nat → Option (String × Nat)
  | _, 0 => none
  | nonce, fuel + 1 =>
    let h := digest (hashInput index timestamp data previous_hash nonce)
    if strEndsWith h trailing then some (h, nonce)
    else sealLoop digest index timestamp data previous_hash trailing
          (nonce + 1) fuel

/-- The ways the source can panic (plus fuel exhaustion, an artifact of
bounding the unbounded search loop). -/
inductive Panic where
  /-- `btc_hash.len() - difficulty as usize` underflows `usize` when
  `difficulty > btc_hash.len()` (the source has no check). -/
  | subOverflow
  /-- `HASHES.get(index).unwrap()` on `None`. -/
  | unwrapNone
  /-- the fuel of the embedding for the unbounded nonce loop ran out. -/
  | outOfFuel
  deriving DecidableEq, Repr

/-- `Block::calculate_hash`: takes the last `difficulty` characters of
`btc_hash` as the target suffix (the source computes
`&btc_hash[btc_hash.len() - difficulty..]`, which panics when
`difficulty > btc_hash.len()`; the hex strings are ASCII so byte and
character indexing agree) and runs the nonce search from 0.  The source
returns only the hash and prints the nonce; the embedding returns both,
`Block.new` keeps only the hash. -/
def calculate_hash (digest : String → String) (index : Nat)
    (timestamp data previous_hash btc_hash : String)
    (difficulty fuel : Nat) : Except Panic (String × Nat) :=
  if difficulty ≤ btc_hash.length then
    let trailing := btc_hash.drop (btc_hash.length - difficulty)
    match sealLoop digest index timestamp data previous_hash trailing 0 fuel with
    | some r => .ok r
    | none => .error .outOfFuel
  else
    .error .subOverflow

/-- `Block::new` under the `reproduce_blocks` configuration:
`timestamp = index.to_string()`. -/
def Block.new (digest : String → String) (index : Nat)
    (data previous_hash btc_hash : String) (difficulty fuel : Nat) :
    Except Panic Block :=
  let timestamp := toString index
  match calculate_hash digest index timestamp data previous_hash btc_hash
      difficulty fuel with
  | .ok (h, _) =>
    .ok { index := index, timestamp := timestamp, data := data,
          previous_hash := previous_hash, hash := h, btc_hash := btc_hash,
          difficulty := difficulty }
  | .error e => .error e

/-- The balance mutation applied by `Blockchain::update_bal` to the found
account: `bal -= v` / `bal += v` (wrapping `u8` arithmetic) or the `+= 10`
reward when no amount is given. -/
def mutate_bal (bal : Option Nat) (reduce : Bool) (a : Account) : Account :=
  { a with bal :=
      match bal with
      | some v => if reduce then (a.bal + 256 - v) % 256 else (a.bal + v) % 256
      | none => (a.bal + 10) % 256 }

/-- `Blockchain::update_bal`: mutate the first account whose `addr`
matches (`get_bal` uses `iter_mut().find`), or push a fresh account with
balance 10 when none matches. -/
def update_bal : List Account → String → Option Nat → Bool → List Account
  | [], addr, _, _ => [{ addr := addr, bal := 10 }]
  | a :: as_, addr, bal, reduce =>
    if a.addr == addr then mutate_bal bal reduce a :: as_
    else a :: update_bal as_ addr bal reduce

/-- The sender-balance lookup in `add_block`:
`balances.iter().find_map(..).unwrap_or(0)`. -/
def acc_bal_of (balances : List Account) (addr : String) : Nat :=
  match balances.find? (fun a => a.addr == addr) with
  | some a => a.bal
  | none => 0

/-- One iteration of the transaction loop in `Blockchain::add_block`:
skip when `acc_bal < tran.value as u8` (the `u8` cast is `% 256`),
otherwise append `tran.to_str()` to the payload, debit the sender and
credit the receiver by `tran.value as u8`. -/
def applyTran (sha : String → String) (balances : List Account)
    (payload : String) (t : Trasaction) : List Account × String :=
  let acc_bal := acc_bal_of balances t.from_
  if acc_bal < t.value % 256 then (balances, payload)
  else
    let s := t.to_str sha
    let payload := payload ++ s
    let balances := update_bal balances t.from_ (some (t.value % 256)) true
    let balances := update_bal balances t.to_ (some (t.value % 256)) false
    (balances, payload)

/-- The whole `for tran in transactions` loop of `add_block`. -/
def processTxns (sha : String → String) (balances : List Account)
    (payload : String) : List Trasaction → List Account × String
  | [] => (balances, payload)
  | t :: ts =>
    let r := applyTran sha balances payload t
    processTxns sha r.1 r.2 ts

/-- The coinbase transaction synthesized by `add_block` for miner `m`. -/
def coinbase (m : String) : Trasaction :=
  { timestamp := 0, from_ := "Master", to_ := m, value := 10, data := "" }

/-- The `previous_hash` computed at the top of `add_block`: `"0"` for the
genesis call, otherwise `chain[index - 1].hash` (the last block; the
`none` arm is unreachable since `index = chain.len()`). -/
def prev_hash_of (bc : Blockchain) : String :=
  if bc.chain.length == 0 then "0"
  else
    match bc.chain.get? (bc.chain.length - 1) with
    | some b => b.hash
    | none => ""

/-- The `data` branch of `add_block`: the fixed genesis payload and
untouched balances on the genesis call, otherwise the transaction loop
run on `transactions` with the coinbase appended (`transactions.push`). -/
def payloadBals (sha : String → String) (bc : Blockchain) (miner : String)
    (transactions : List Trasaction) : List Account × String :=
  if bc.chain.length == 0 then (bc.balances, "Genesis Block")
  else processTxns sha bc.balances "" (transactions ++ [coinbase miner])

/-- `Blockchain::add_block`.  Order as in the source: build the payload
(mutating balances), look up `HASHES[index]` (`unwrap`: panics when the
sequence is exhausted — the error carries the already-mutated state, as
the Rust `&mut self` retains its mutations at the panic point), seal the
block with fixed difficulty 4, reward the miner, push the block. -/
def add_block (sha digest : String → String) (fuel : Nat) (bc : Blockchain)
    (miner : String) (transactions : List Trasaction) :
    Except (Panic × Blockchain) Blockchain :=
  let index := bc.chain.length
  let previous_hash := prev_hash_of bc
  let r := payloadBals sha bc miner transactions
  let balances1 := r.1
  let data := r.2
  match HASHES.get? index with
  | none => .error (.unwrapNone, { bc with balances := balances1 })
  | some btc_hash =>
    match Block.new digest index data previous_hash btc_hash 4 fuel with
    | .error e => .error (e, { bc with balances := balances1 })
    | .ok block =>
      let balances2 := update_bal balances1 miner none false
      .ok { balances := balances2, chain := bc.chain ++ [block] }

/-- `Blockchain::new`: bootstrap with the genesis `add_block` call. -/
def Blockchain.new (sha digest : String → String) (fuel : Nat)
    (balances : List Account) : Except (Panic × Blockchain) Blockchain :=
  add_block sha digest fuel { balances := balances, chain := [] } "Master" []

/-- States reachable from `Blockchain::new` by repeated `add_block`. -/
inductive Reachable (sha digest : String → String) : Blockchain → Prop
  | base (fuel : Nat) (balances : List Account) (bc : Blockchain) :
      Blockchain.new sha digest fuel balances = .ok bc →
      Reachable sha digest bc
  | step (fuel : Nat) (bc : Blockchain) (miner : String)
      (txns : List Trasaction) (bc2 : Blockchain) :
      Reachable sha digest bc →
      add_block sha digest fuel bc miner txns = .ok bc2 →
      Reachable sha digest bc2

/-- The chain-linkage invariant: block 0 (when present) has
`previous_hash = "0"`, and block `i+1` stores the sealed hash of block `i`. -/
def ChainLinked (c : List Block) : Prop :=
  (∀ b0, c.get? 0 = some b0 → b0.previous_hash = "0") ∧
  ∀ i bi bj, c.get? i = some bi → c.get? (i + 1) = some bj →
    bj.previous_hash = bi.hash

/-- Total of all ledger balances. -/
def totalBal (bs : List Account) : Nat := (bs.map (fun a => a.bal)).sum

/-- All balances are in `u8` range (an invariant of every state the
source can construct). -/
def balsLt (bs : List Account) : Bool := bs.all (fun a => a.bal < 256)

/-- `add_block` only conserves the total when the sender and receiver of
every applied transaction already have accounts and the credit does not leave
`u8` range; `consOk` checks those conditions along the very fold
`processTxns` performs (a skipped transaction needs no condition). -/
def consOk (sha : String → String) : List Account → List Trasaction → Bool
  | _, [] => true
  | bs, t :: ts =>
    let v := t.value % 256
    let ok :=
      if acc_bal_of bs t.from_ < v then true
      else
        (bs.find? (fun a => a.addr == t.from_)).isSome &&
        match bs.find? (fun a => a.addr == t.to_) with
        | some ra => decide (ra.bal + v < 256)
        | none => false
    ok && consOk sha (applyTran sha bs "" t).1 ts

/-- The reward credit of the miner stays in `u8` range (or the miner is fresh,
in which case the created account holds exactly 10). -/
def rewardOk (bs : List Account) (miner : String) : Bool :=
  match bs.find? (fun a => a.addr == miner) with
  | some a => decide (a.bal + 10 < 256)
  | none => true

/-! Concrete fixtures used by witnesses and counterexamples: toy digest
providers (the digest is an abstract capability, so any function
exercises the control flow) and small ledger states. -/

/-- Toy transaction-digest provider. -/
def shaW : String → String := fun _ => "H"

/-- Toy sealer digest whose output ends with the genesis reference-hash
tail, so genesis sealing succeeds at nonce 0. -/
def digGen : String → String := fun _ => "5720"

/-- Toy sealer digest whose output ends with the index-1 reference-hash
tail. -/
def digB1 : String → String := fun _ => "005f"

/-- Toy sealer digest that fails at nonce 0 and succeeds from nonce 1 on,
exercising the least-nonce property. -/
def digLeast : String → String := fun s => if s == "0tdp0" then "aaaa" else "bb5720"

/-- A filler block for fabricated chain states. -/
def dummyB : Block :=
  { index := 0, timestamp := "0", data := "Genesis Block",
    previous_hash := "0", hash := "X", btc_hash := "", difficulty := 4 }

/-- The genesis blockchain built with the toy providers. -/
def bcG : Blockchain :=
  (Blockchain.new shaW digGen 3 BALANCES).toOption.getD { balances := [], chain := [] }

/-- A fabricated state whose chain has already consumed all 8 reference
hashes. -/
def bc8 : Blockchain :=
  { balances := [{ addr := "Master", bal := 150 }],
    chain := List.replicate 8 dummyB }

/-- A one-block state for exercising a non-genesis `add_block`. -/
def bcW : Blockchain :=
  { balances := [{ addr := "Master", bal := 150 }, { addr := "Alice", bal := 20 },
                 { addr := "Bob", bal := 5 }],
    chain := [dummyB] }

/-- A funded Alice-to-Bob transfer of 7 (both accounts exist in `bcW`). -/
def txW : Trasaction :=
  { timestamp := 7, from_ := "Alice", to_ := "Bob", value := 7, data := "d" }

/-- The state after `add_block` on `bcW` with `txW`. -/
def bcW2 : Blockchain :=
  (add_block shaW digB1 3 bcW "Bob" [txW]).toOption.getD { balances := [], chain := [] }

/-- A one-block state holding only the seed accounts (Bob unknown). -/
def bcC3 : Blockchain := { balances := BALANCES, chain := [dummyB] }

/-- A funded Alice-to-Bob transfer of 7 where Bob has no account yet. -/
def txC3 : Trasaction :=
  { timestamp := 7, from_ := "Alice", to_ := "Bob", value := 7, data := "d" }

/-- The state after `add_block` on `bcC3` with `txC3`. -/
def bcC3r : Blockchain :=
  (add_block shaW digB1 3 bcC3 "Bob" [txC3]).toOption.getD { balances := [], chain := [] }

/-- A funded transfer processed before the underfunded one: Alice pays
Master 5, leaving her with 15. -/
def txW21pre : Trasaction :=
  { timestamp := 1, from_ := "Alice", to_ := "Master", value := 5, data := "" }

/-- The underfunded transfer: Alice (then holding 15) cannot pay 21. -/
def txW21 : Trasaction :=
  { timestamp := 2, from_ := "Alice", to_ := "Master", value := 21, data := "" }

/-- A funded transfer processed after the skipped one. -/
def txW21post : Trasaction :=
  { timestamp := 3, from_ := "Master", to_ := "Alice", value := 1, data := "" }

end SimpleBlockchain

namespace SimpleBlockchain

theorem empty_append_str (s : String) : "" ++ s = s := String.empty_append s

/-- Unfolding `sealLoop`: a successful search that started at `start`
returns the digest of the header at the returned nonce, that digest ends
with the target, and every nonce from `start` up to the returned one
fails the target test. -/
theorem sealLoop_spec (digest : String → String) (index : Nat)
    (ts data prev trailing : String) :
    ∀ fuel start h n,
      sealLoop digest index ts data prev trailing start fuel = some (h, n) →
      start ≤ n ∧ h = digest (hashInput index ts data prev n) ∧
      strEndsWith h trailing = true ∧
      ∀ m, start ≤ m → m < n →
        strEndsWith (digest (hashInput index ts data prev m)) trailing = false := by
  intro fuel
  induction fuel with
  | zero => intro start h n hseal; simp [sealLoop] at hseal
  | succ fuel ih =>
    intro start h n hseal
    rw [sealLoop] at hseal
    by_cases hend :
        strEndsWith (digest (hashInput index ts data prev start)) trailing = true
    · rw [if_pos hend] at hseal
      obtain ⟨rfl, rfl⟩ : h = digest (hashInput index ts data prev start) ∧ n = start := by
        constructor <;> [skip; skip] <;> cases hseal <;> rfl
      exact ⟨Nat.le_refl _, rfl, hend, fun m h1 h2 => absurd (Nat.lt_of_le_of_lt h1 h2) (Nat.lt_irrefl _)⟩
    · rw [if_neg hend] at hseal
      obtain ⟨hle, hh, he, hmin⟩ := ih (start + 1) h n hseal
      refine ⟨Nat.le_of_succ_le hle, hh, he, fun m h1 h2 => ?_⟩
      rcases Nat.eq_or_lt_of_le h1 with h1 | h1
      · subst h1; exact Bool.not_eq_true _ ▸ (by simpa using hend)
      · exact hmin m h1 h2

/-- C1: a successful run of the Sealer (`Block::calculate_hash`, with
`d ≤ len r`) returns a pair `(hash, nonce)` where `hash` is the digest of
the separator-free concatenation `index ‖ timestamp ‖ payload ‖
previous_hash ‖ nonce`, `hash` ends with the last `d` characters of the
reference hash `r`, and `nonce` is the least natural number whose digest
has that suffix. -/
theorem c1_sealer_least_nonce (digest : String → String) (index : Nat)
    (ts data prev r : String) (d fuel : Nat) (hsh : String) (n : Nat)
    (hd : d ≤ r.length)
    (h : calculate_hash digest index ts data prev r d fuel = .ok (hsh, n)) :
    hsh = digest (hashInput index ts data prev n) ∧
    strEndsWith hsh (r.drop (r.length - d)) = true ∧
    ∀ m, m < n →
      strEndsWith (digest (hashInput index ts data prev m))
        (r.drop (r.length - d)) = false := by
  simp only [calculate_hash, if_pos hd] at h
  cases hseal : sealLoop digest index ts data prev (r.drop (r.length - d)) 0 fuel with
  | none => rw [hseal] at h; cases h
  | some p =>
    rw [hseal] at h
    cases p with
    | mk p1 p2 =>
      injection h with h2
      rw [h2] at hseal
      obtain ⟨-, hh, he, hmin⟩ :=
        sealLoop_spec digest index ts data prev (r.drop (r.length - d))
          fuel 0 hsh n hseal
      exact ⟨hh, he, fun m hm => hmin m (Nat.zero_le m) hm⟩

/-- Witness for C1 at a concrete input: with a toy digest that misses at
nonce 0 and hits at nonce 1, the Sealer returns the output of that digest at
nonce 1, it has the required suffix, and nonce 0 indeed fails. -/
theorem c1_witness :
    "bb5720" = digLeast (hashInput 0 "t" "d" "p" 1) ∧
    strEndsWith "bb5720"
      (("00005720" : String).drop (("00005720" : String).length - 4)) = true ∧
    strEndsWith (digLeast (hashInput 0 "t" "d" "p" 0))
      (("00005720" : String).drop (("00005720" : String).length - 4)) = false := by
  have h := c1_sealer_least_nonce digLeast 0 "t" "d" "p" "00005720" 4 3
    "bb5720" 1 (by decide) (by rfl)
  exact ⟨h.1, h.2.1, h.2.2 0 (by decide)⟩

/-- C9: `Trasaction::to_str` produces exactly
`timestamp:from:to:value:data:hash;` and `Trasaction::hash` is the digest
of `timestamp:from:to:value:value` (the `value` field twice, `data`
absent); both are pure functions of the record and the digest provider. -/
theorem c9_serialize (sha : String → String) (t : Trasaction) :
    t.to_str sha
      = toString t.timestamp ++ ":" ++ t.from_ ++ ":" ++ t.to_ ++ ":"
        ++ toString t.value ++ ":" ++ t.data ++ ":" ++ t.hash sha ++ ";" ∧
    t.hash sha
      = sha (toString t.timestamp ++ ":" ++ t.from_ ++ ":" ++ t.to_ ++ ":"
          ++ toString t.value ++ ":" ++ toString t.value) := by
  constructor
  · show (((((((((("" ++ toString t.timestamp) ++ String.singleton ':') ++ t.from_)
        ++ String.singleton ':') ++ t.to_) ++ String.singleton ':') ++ toString t.value)
        ++ String.singleton ':') ++ t.data) ++ String.singleton ':') ++ t.hash sha
        ++ String.singleton ';'
        = _
    rw [show String.singleton ':' = ":" from rfl,
        show String.singleton ';' = ";" from rfl,
        String.empty_append]
  · rfl

/-- C6 evidence: the source debit `a.bal -= bal` has no underflow check:
debiting 10 from an account holding 5 wraps the `u8` balance to 251
(release semantics; a debug build panics) instead of failing with an
`Underflow` error. -/
theorem c6_debit_wraps :
    update_bal [{ addr := "A", bal := 5 }] "A" (some 10) true
      = [{ addr := "A", bal := 251 }] := by rfl

/-- C7 evidence: with `difficulty = 3 > 2 = len "ab"`, the Sealer panics
(`btc_hash.len() - difficulty` underflows `usize`) instead of failing
with an `InvalidDifficulty` error. -/
theorem c7_difficulty_panics :
    calculate_hash digGen 0 "0" "d" "p" "ab" 3 9 = .error .subOverflow := by rfl

/-- Unfolding `find?` over a cons for the address predicate (stated as an
`if` to avoid higher-order unification picking the wrong predicate). -/
theorem find_addr_cons (addrQ : String) (a : Account) (l : List Account) :
    List.find? (fun x => x.addr == addrQ) (a :: l)
      = if a.addr == addrQ then some a
        else List.find? (fun x => x.addr == addrQ) l := by
  rw [List.find?]
  cases h : a.addr == addrQ <;> simp [h]

/-- `update_bal` leaves the lookup of every other address unchanged. -/
theorem find_update_bal_other (addr addrQ : String) (b : Option Nat)
    (r : Bool) (hne : addrQ ≠ addr) :
    ∀ bs : List Account,
      (update_bal bs addr b r).find? (fun x => x.addr == addrQ)
        = bs.find? (fun x => x.addr == addrQ) := by
  intro bs
  induction bs with
  | nil =>
    simp only [update_bal, List.find?]
    rw [show (addr == addrQ) = false from beq_eq_false_iff_ne.mpr (Ne.symm hne)]
  | cons a as ih =>
    rw [update_bal]
    by_cases ha : (a.addr == addr) = true
    · rw [if_pos ha]
      have haq : (a.addr == addrQ) = false := by
        rw [beq_eq_false_iff_ne]
        intro hEq
        exact hne (hEq ▸ (beq_iff_eq.mp ha) ▸ rfl)
      rw [find_addr_cons, find_addr_cons]
      have haq2 : ((mutate_bal b r a).addr == addrQ) = false := haq
      rw [if_neg (by simp [haq2]), if_neg (by simp [haq])]
    · rw [if_neg ha, find_addr_cons, find_addr_cons]
      by_cases haq : (a.addr == addrQ) = true
      · rw [if_pos haq, if_pos haq]
      · rw [if_neg haq, if_neg haq, ih]

/-- When the address is present, `update_bal` makes its first entry the
mutated account, as seen through `find?`. -/
theorem find_update_bal_found (addr : String) (b : Option Nat) (r : Bool) :
    ∀ bs : List Account, ∀ sa : Account,
      bs.find? (fun x => x.addr == addr) = some sa →
      (update_bal bs addr b r).find? (fun x => x.addr == addr)
        = some (mutate_bal b r sa) := by
  intro bs
  induction bs with
  | nil => intro sa h; simp [List.find?] at h
  | cons a as ih =>
    intro sa h
    rw [find_addr_cons] at h
    rw [update_bal]
    by_cases ha : (a.addr == addr) = true
    · rw [if_pos ha] at h
      injection h with h; subst h
      rw [if_pos ha, find_addr_cons]
      have hm : ((mutate_bal b r a).addr == addr) = true := ha
      rw [if_pos hm]
    · rw [if_neg ha] at h
      rw [if_neg ha, find_addr_cons, if_neg ha]
      exact ih sa h

/-- When the address is absent, `update_bal` pushes a fresh account with
balance exactly 10, whatever amount was requested (the credit quirk). -/
theorem find_update_bal_missing (addr : String) (b : Option Nat) (r : Bool) :
    ∀ bs : List Account,
      bs.find? (fun x => x.addr == addr) = none →
      (update_bal bs addr b r).find? (fun x => x.addr == addr)
        = some { addr := addr, bal := 10 } := by
  intro bs
  induction bs with
  | nil =>
    intro _
    simp only [update_bal, List.find?]
    rw [show (addr == addr) = true from beq_self_eq_true addr]
  | cons a as ih =>
    intro h
    rw [find_addr_cons] at h
    rw [update_bal]
    by_cases ha : (a.addr == addr) = true
    · rw [if_pos ha] at h; cases h
    · rw [if_neg ha] at h
      rw [if_neg ha, find_addr_cons, if_neg ha]
      exact ih h

/-- `totalBal` over a cons. -/
theorem totalBal_cons (a : Account) (l : List Account) :
    totalBal (a :: l) = a.bal + totalBal l := by
  simp [totalBal]

/-- Sum change of `update_bal` when the address is present: the old
balance is replaced by the mutated one (stated additively to avoid `Nat`
truncation). -/
theorem totalBal_update_bal_found (addr : String) (b : Option Nat) (r : Bool) :
    ∀ bs : List Account, ∀ sa : Account,
      bs.find? (fun x => x.addr == addr) = some sa →
      totalBal (update_bal bs addr b r) + sa.bal
        = totalBal bs + (mutate_bal b r sa).bal := by
  intro bs
  induction bs with
  | nil => intro sa h; simp [List.find?] at h
  | cons a as ih =>
    intro sa h
    rw [find_addr_cons] at h
    rw [update_bal]
    by_cases ha : (a.addr == addr) = true
    · rw [if_pos ha] at h
      injection h with h; subst h
      rw [if_pos ha, totalBal_cons, totalBal_cons]
      omega
    · rw [if_neg ha] at h
      rw [if_neg ha, totalBal_cons, totalBal_cons]
      have := ih sa h
      omega

/-- Sum change of `update_bal` when the address is absent: exactly the
bootstrap balance 10 is added. -/
theorem totalBal_update_bal_missing (addr : String) (b : Option Nat) (r : Bool) :
    ∀ bs : List Account,
      bs.find? (fun x => x.addr == addr) = none →
      totalBal (update_bal bs addr b r) = totalBal bs + 10 := by
  intro bs
  induction bs with
  | nil => intro _; simp [update_bal, totalBal]
  | cons a as ih =>
    intro h
    rw [find_addr_cons] at h
    rw [update_bal]
    by_cases ha : (a.addr == addr) = true
    · rw [if_pos ha] at h; cases h
    · rw [if_neg ha] at h
      rw [if_neg ha, totalBal_cons, totalBal_cons, ih h]
      omega

/-- `update_bal` keeps every balance below 256. -/
theorem balsLt_update_bal (addr : String) (b : Option Nat) (r : Bool) :
    ∀ bs : List Account, balsLt bs = true →
      balsLt (update_bal bs addr b r) = true := by
  intro bs
  induction bs with
  | nil =>
    intro _
    simp [update_bal, balsLt]
  | cons a as ih =>
    intro h
    rw [balsLt, List.all_cons, Bool.and_eq_true] at h
    rw [update_bal]
    by_cases ha : (a.addr == addr) = true
    · rw [if_pos ha, balsLt, List.all_cons, Bool.and_eq_true]
      refine ⟨?_, h.2⟩
      cases b with
      | some v =>
        cases r
        · exact decide_eq_true (show (a.bal + v) % 256 < 256 by omega)
        · exact decide_eq_true (show (a.bal + 256 - v) % 256 < 256 by omega)
      | none => exact decide_eq_true (show (a.bal + 10) % 256 < 256 by omega)
    · rw [if_neg ha, balsLt, List.all_cons, Bool.and_eq_true]
      exact ⟨h.1, ih h.2⟩

/-- A found account satisfies the range invariant. -/
theorem bal_lt_of_found (bs : List Account) (addr : String) (sa : Account)
    (h : bs.find? (fun x => x.addr == addr) = some sa)
    (hb : balsLt bs = true) : sa.bal < 256 := by
  have hmem : sa ∈ bs := List.mem_of_find?_eq_some h
  have := List.all_eq_true.mp hb sa hmem
  simpa using this

/-- An underfunded transaction is a no-op for balances and payload. -/
theorem applyTran_skip (sha : String → String) (bs : List Account)
    (pay : String) (t : Trasaction)
    (h : acc_bal_of bs t.from_ < t.value % 256) :
    applyTran sha bs pay t = (bs, pay) := by
  simp only [applyTran]
  rw [if_pos h]

/-- A funded transaction debits the sender, credits the receiver and
appends its serialization to the payload. -/
theorem applyTran_apply (sha : String → String) (bs : List Account)
    (pay : String) (t : Trasaction)
    (h : ¬ acc_bal_of bs t.from_ < t.value % 256) :
    applyTran sha bs pay t
      = (update_bal (update_bal bs t.from_ (some (t.value % 256)) true) t.to_
           (some (t.value % 256)) false,
         pay ++ t.to_str sha) := by
  simp only [applyTran]
  rw [if_neg h]

/-- The balances produced by one loop iteration do not depend on the
payload accumulated so far. -/
theorem applyTran_fst_pay (sha : String → String) (bs : List Account)
    (pay pay2 : String) (t : Trasaction) :
    (applyTran sha bs pay t).1 = (applyTran sha bs pay2 t).1 := by
  simp only [applyTran]
  by_cases h : acc_bal_of bs t.from_ < t.value % 256
  · rw [if_pos h, if_pos h]
  · rw [if_neg h, if_neg h]

/-- Nor do the balances produced by the whole loop. -/
theorem processTxns_fst_pay (sha : String → String) :
    ∀ ts : List Trasaction, ∀ bs : List Account, ∀ pay pay2 : String,
      (processTxns sha bs pay ts).1 = (processTxns sha bs pay2 ts).1 := by
  intro ts
  induction ts with
  | nil => intro bs pay pay2; rfl
  | cons t ts ih =>
    intro bs pay pay2
    simp only [processTxns]
    calc (processTxns sha (applyTran sha bs pay t).1 (applyTran sha bs pay t).2 ts).1
        = (processTxns sha (applyTran sha bs pay t).1 (applyTran sha bs pay2 t).2 ts).1 :=
          ih _ _ _
      _ = (processTxns sha (applyTran sha bs pay2 t).1 (applyTran sha bs pay2 t).2 ts).1 := by
          rw [applyTran_fst_pay sha bs pay pay2 t]

/-- Balance movement of one applied transaction when sender and receiver
both exist and are distinct: the sender loses exactly `value % 256` (the
`u8` cast of the `u128` value) and the receiver gains it modulo 256. -/
theorem applyTran_transfer (sha : String → String) (bs : List Account)
    (pay : String) (t : Trasaction) (sa ra : Account)
    (hsa : bs.find? (fun x => x.addr == t.from_) = some sa)
    (hra : bs.find? (fun x => x.addr == t.to_) = some ra)
    (hne : t.from_ ≠ t.to_)
    (hv : t.value % 256 ≤ sa.bal)
    (hlt : sa.bal < 256) :
    acc_bal_of (applyTran sha bs pay t).1 t.from_ = sa.bal - t.value % 256 ∧
    acc_bal_of (applyTran sha bs pay t).1 t.to_
      = (ra.bal + t.value % 256) % 256 := by
  have hbal : acc_bal_of bs t.from_ = sa.bal := by
    simp only [acc_bal_of]; rw [hsa]
  have hnlt : ¬ acc_bal_of bs t.from_ < t.value % 256 := by omega
  rw [applyTran_apply sha bs pay t hnlt]
  have h1 : (update_bal bs t.from_ (some (t.value % 256)) true).find?
      (fun x => x.addr == t.from_) = some (mutate_bal (some (t.value % 256)) true sa) :=
    find_update_bal_found t.from_ _ _ bs sa hsa
  have h2 : (update_bal bs t.from_ (some (t.value % 256)) true).find?
      (fun x => x.addr == t.to_) = some ra := by
    rw [find_update_bal_other t.from_ t.to_ _ _ (Ne.symm hne) bs]
    exact hra
  have h3 : (update_bal (update_bal bs t.from_ (some (t.value % 256)) true)
        t.to_ (some (t.value % 256)) false).find? (fun x => x.addr == t.to_)
      = some (mutate_bal (some (t.value % 256)) false ra) :=
    find_update_bal_found t.to_ _ _ _ ra h2
  have h4 : (update_bal (update_bal bs t.from_ (some (t.value % 256)) true)
        t.to_ (some (t.value % 256)) false).find? (fun x => x.addr == t.from_)
      = some (mutate_bal (some (t.value % 256)) true sa) := by
    rw [find_update_bal_other t.to_ t.from_ _ _ hne _]
    exact h1
  constructor
  · simp only [acc_bal_of]
    rw [h4]
    show (sa.bal + 256 - t.value % 256) % 256 = sa.bal - t.value % 256
    omega
  · simp only [acc_bal_of]
    rw [h3]
    rfl

/-- One loop iteration conserves the total under the `consOk` per-step
conditions. -/
theorem totalBal_applyTran (sha : String → String) (bs : List Account)
    (pay : String) (t : Trasaction)
    (hb : balsLt bs = true)
    (hok : (if acc_bal_of bs t.from_ < t.value % 256 then true
            else
              (bs.find? (fun a => a.addr == t.from_)).isSome &&
              match bs.find? (fun a => a.addr == t.to_) with
              | some ra => decide (ra.bal + t.value % 256 < 256)
              | none => false) = true) :
    totalBal (applyTran sha bs pay t).1 = totalBal bs := by
  by_cases hc : acc_bal_of bs t.from_ < t.value % 256
  · rw [applyTran_skip sha bs pay t hc]
  · rw [if_neg hc, Bool.and_eq_true] at hok
    obtain ⟨hsome, hrec⟩ := hok
    obtain ⟨sa, hsa⟩ := Option.isSome_iff_exists.mp hsome
    cases hra : bs.find? (fun a => a.addr == t.to_) with
    | none => rw [hra] at hrec; cases hrec
    | some ra =>
      rw [hra] at hrec
      have hralt : ra.bal + t.value % 256 < 256 := of_decide_eq_true hrec
      have hsalt : sa.bal < 256 := bal_lt_of_found bs t.from_ sa hsa hb
      have hv : t.value % 256 ≤ sa.bal := by
        have : acc_bal_of bs t.from_ = sa.bal := by
          simp only [acc_bal_of]; rw [hsa]
        omega
      rw [applyTran_apply sha bs pay t hc]
      show totalBal (update_bal (update_bal bs t.from_ (some (t.value % 256)) true)
        t.to_ (some (t.value % 256)) false) = totalBal bs
      have e1 := totalBal_update_bal_found t.from_ (some (t.value % 256)) true bs sa hsa
      have m1 : (mutate_bal (some (t.value % 256)) true sa).bal
          = (sa.bal + 256 - t.value % 256) % 256 := rfl
      by_cases he : t.from_ = t.to_
      · have h2 : (update_bal bs t.from_ (some (t.value % 256)) true).find?
            (fun x => x.addr == t.to_)
            = some (mutate_bal (some (t.value % 256)) true sa) := by
          rw [← he]
          exact find_update_bal_found t.from_ _ _ bs sa hsa
        have e2 := totalBal_update_bal_found t.to_ (some (t.value % 256)) false _ _ h2
        have m2 : (mutate_bal (some (t.value % 256)) false
              (mutate_bal (some (t.value % 256)) true sa)).bal
            = ((sa.bal + 256 - t.value % 256) % 256 + t.value % 256) % 256 := rfl
        rw [m1] at e1
        rw [m1, m2] at e2
        omega
      · have h2 : (update_bal bs t.from_ (some (t.value % 256)) true).find?
            (fun x => x.addr == t.to_) = some ra := by
          rw [find_update_bal_other t.from_ t.to_ _ _ (Ne.symm he) bs]
          exact hra
        have e2 := totalBal_update_bal_found t.to_ (some (t.value % 256)) false _ _ h2
        have m2 : (mutate_bal (some (t.value % 256)) false ra).bal
            = (ra.bal + t.value % 256) % 256 := rfl
        rw [m1] at e1
        rw [m2] at e2
        omega

/-- One loop iteration preserves the `u8` range invariant. -/
theorem balsLt_applyTran (sha : String → String) (bs : List Account)
    (pay : String) (t : Trasaction) (hb : balsLt bs = true) :
    balsLt (applyTran sha bs pay t).1 = true := by
  by_cases hc : acc_bal_of bs t.from_ < t.value % 256
  · rw [applyTran_skip sha bs pay t hc]; exact hb
  · rw [applyTran_apply sha bs pay t hc]
    exact balsLt_update_bal _ _ _ _ (balsLt_update_bal _ _ _ _ hb)

/-- The whole transaction loop conserves the total and preserves the
range invariant under `consOk`. -/
theorem totalBal_processTxns (sha : String → String) :
    ∀ ts : List Trasaction, ∀ bs : List Account, ∀ pay : String,
      consOk sha bs ts = true → balsLt bs = true →
      totalBal (processTxns sha bs pay ts).1 = totalBal bs ∧
      balsLt (processTxns sha bs pay ts).1 = true := by
  intro ts
  induction ts with
  | nil => intro bs pay _ hb; exact ⟨rfl, hb⟩
  | cons t ts ih =>
    intro bs pay hok hb
    simp only [consOk, Bool.and_eq_true] at hok
    obtain ⟨hok1, hok2⟩ := hok
    simp only [processTxns]
    rw [applyTran_fst_pay sha bs pay "" t]
    have hstep : totalBal (applyTran sha bs "" t).1 = totalBal bs :=
      totalBal_applyTran sha bs "" t hb hok1
    have hblt : balsLt (applyTran sha bs "" t).1 = true :=
      balsLt_applyTran sha bs "" t hb
    obtain ⟨ih1, ih2⟩ := ih (applyTran sha bs "" t).1 (applyTran sha bs pay t).2
      hok2 hblt
    exact ⟨ih1.trans hstep, ih2⟩

/-- Dissecting a successful `add_block`: the reference hash existed, the
Sealer succeeded on the computed payload, and the result is the rewarded
ledger plus the appended block. -/
theorem add_block_ok_parts (sha digest : String → String) (fuel : Nat)
    (bc : Blockchain) (miner : String) (txns : List Trasaction)
    (bc2 : Blockchain)
    (h : add_block sha digest fuel bc miner txns = .ok bc2) :
    ∃ btc block,
      HASHES.get? bc.chain.length = some btc ∧
      Block.new digest bc.chain.length (payloadBals sha bc miner txns).2
        (prev_hash_of bc) btc 4 fuel = .ok block ∧
      bc2 = { balances := update_bal (payloadBals sha bc miner txns).1 miner none false,
              chain := bc.chain ++ [block] } := by
  simp only [add_block] at h
  split at h
  next heq => cases h
  next btc heq =>
    split at h
    next e heq2 => cases h
    next block heq2 =>
      injection h with h
      exact ⟨btc, block, heq, heq2, h.symm⟩

/-- A sealed block keeps the data and previous-hash fields it was built
from. -/
theorem Block.new_fields (digest : String → String) (index : Nat)
    (data prev btc : String) (diff fuel : Nat) (b : Block)
    (h : Block.new digest index data prev btc diff fuel = .ok b) :
    b.data = data ∧ b.previous_hash = prev ∧ b.index = index := by
  simp only [Block.new] at h
  cases hc : calculate_hash digest index (toString index) data prev btc diff fuel with
  | error e => rw [hc] at h; cases h
  | ok p =>
    rw [hc] at h
    cases p with
    | mk p1 p2 =>
      injection h with h
      rw [← h]
      exact ⟨rfl, rfl, rfl⟩

/-- The empty chain is trivially linked. -/
theorem chainLinked_nil : ChainLinked [] := by
  constructor
  · intro b0 h; simp at h
  · intro i bi bj h _; simp at h

/-- Appending a block whose `previous_hash` is computed the way
`add_block` computes it preserves linkage. -/
theorem chainLinked_append (c : List Block) (b : Block) (hc : ChainLinked c)
    (hb : b.previous_hash
      = (if c.length == 0 then "0"
         else match c.get? (c.length - 1) with
              | some x => x.hash
              | none => "")) :
    ChainLinked (c ++ [b]) := by
  obtain ⟨hc0, hcl⟩ := hc
  constructor
  · intro b0 h0
    cases c with
    | nil =>
      simp only [List.nil_append] at h0
      have h0b : b = b0 := by
        have : ([b] : List Block).get? 0 = some b := rfl
        rw [this] at h0
        injection h0
      rw [← h0b, hb]
      rfl
    | cons a as =>
      have ha : ((a :: as) ++ [b]).get? 0 = some a := rfl
      rw [ha] at h0
      injection h0 with h0
      rw [← h0]
      exact hc0 a rfl
  · intro i bi bj hi hj
    by_cases h1 : i + 1 < c.length
    · rw [List.get?_append (Nat.lt_of_succ_lt h1)] at hi
      rw [List.get?_append h1] at hj
      exact hcl i bi bj hi hj
    · by_cases h2 : i < c.length
      · have hlen : i + 1 = c.length := by omega
        rw [List.get?_append h2] at hi
        rw [List.get?_append_right (by omega)] at hj
        rw [show i + 1 - c.length = 0 by omega] at hj
        have hjb : b = bj := by
          have : ([b] : List Block).get? 0 = some b := rfl
          rw [this] at hj
          injection hj
        rw [← hjb, hb]
        have hne : (c.length == 0) = false :=
          beq_eq_false_iff_ne.mpr (by omega)
        rw [hne]
        rw [show c.length - 1 = i by omega, hi]
        rfl
      · have hle : c.length ≤ i := by omega
        rw [List.get?_append_right (by omega)] at hj
        have hnone : ([b] : List Block).get? (i + 1 - c.length) = none := by
          apply List.get?_len_le
          simp only [List.length_singleton]
          omega
        rw [hnone] at hj
        cases hj

/-- C2: every blockchain reachable from `Blockchain::new` by repeated
`add_block` calls is linked: block 0 has `previous_hash = "0"` and block
`i+1` stores the sealed hash of block `i`. -/
theorem c2_chain_linkage (sha digest : String → String) (bc : Blockchain)
    (h : Reachable sha digest bc) : ChainLinked bc.chain := by
  induction h with
  | base fuel balances bc0 hnew =>
    have hnew2 : add_block sha digest fuel { balances := balances, chain := [] }
        "Master" [] = .ok bc0 := hnew
    obtain ⟨btc, block, hbtc, hblk, hbc⟩ :=
      add_block_ok_parts sha digest fuel _ "Master" [] bc0 hnew2
    obtain ⟨hdata, hprev, hidx⟩ := Block.new_fields _ _ _ _ _ _ _ _ hblk
    rw [hbc]
    show ChainLinked (([] : List Block) ++ [block])
    exact chainLinked_append [] block chainLinked_nil hprev
  | step fuel bc0 miner txns bc2 hre hstep ih =>
    obtain ⟨btc, block, hbtc, hblk, hbc⟩ :=
      add_block_ok_parts sha digest fuel bc0 miner txns bc2 hstep
    obtain ⟨hdata, hprev, hidx⟩ := Block.new_fields _ _ _ _ _ _ _ _ hblk
    rw [hbc]
    show ChainLinked (bc0.chain ++ [block])
    exact chainLinked_append bc0.chain block ih hprev

/-- Witness for C2: the concrete genesis chain built with the toy
providers is reachable and linked. -/
theorem c2_witness :
    Blockchain.new shaW digGen 3 BALANCES = .ok bcG ∧ ChainLinked bcG.chain := by
  have hnew : Blockchain.new shaW digGen 3 BALANCES = .ok bcG := by rfl
  exact ⟨hnew, c2_chain_linkage shaW digGen bcG (Reachable.base 3 BALANCES bcG hnew)⟩

/-- C8 (amended): the genesis call seals and appends a block with payload
`"Genesis Block"` and `previous_hash = "0"`, and the only ledger mutation
is the unconditional miner reward (`update_bal miner none false`); every
address other than the miner keeps its balance. -/
theorem c8_genesis (sha digest : String → String) (fuel : Nat)
    (bc : Blockchain) (miner : String) (txns : List Trasaction)
    (bc2 : Blockchain) (h0 : bc.chain = [])
    (h : add_block sha digest fuel bc miner txns = .ok bc2) :
    (∃ block, bc2.chain = [block] ∧ block.data = "Genesis Block" ∧
       block.previous_hash = "0") ∧
    bc2.balances = update_bal bc.balances miner none false ∧
    ∀ addr, addr ≠ miner →
      acc_bal_of bc2.balances addr = acc_bal_of bc.balances addr := by
  obtain ⟨btc, block, hbtc, hblk, hbc⟩ :=
    add_block_ok_parts sha digest fuel bc miner txns bc2 h
  obtain ⟨hdata, hprev, hidx⟩ := Block.new_fields _ _ _ _ _ _ _ _ hblk
  have hlen : bc.chain.length = 0 := by rw [h0]; rfl
  have hpb : payloadBals sha bc miner txns = (bc.balances, "Genesis Block") := by
    unfold payloadBals
    rw [hlen]
    rfl
  have hph : prev_hash_of bc = "0" := by
    unfold prev_hash_of
    rw [hlen]
    rfl
  subst hbc
  refine ⟨⟨block, ?_, ?_, ?_⟩, ?_, ?_⟩
  · show bc.chain ++ [block] = [block]
    rw [h0]
    rfl
  · rw [hdata, hpb]
  · rw [hprev, hph]
  · show update_bal (payloadBals sha bc miner txns).1 miner none false
      = update_bal bc.balances miner none false
    rw [hpb]
  · intro addr hne
    show acc_bal_of (update_bal (payloadBals sha bc miner txns).1 miner none false) addr
      = acc_bal_of bc.balances addr
    rw [hpb]
    simp only [acc_bal_of]
    rw [find_update_bal_other miner addr none false hne bc.balances]

/-- Witness for C8: the concrete genesis run appends exactly the genesis
block, rewards the miner, and leaves Alice untouched. -/
theorem c8_witness :
    bcG.chain.map (fun b => b.data) = ["Genesis Block"] ∧
    bcG.chain.map (fun b => b.previous_hash) = ["0"] ∧
    bcG.balances = update_bal BALANCES "Master" none false ∧
    acc_bal_of bcG.balances "Alice" = acc_bal_of BALANCES "Alice" := by
  have h := c8_genesis shaW digGen 3 { balances := BALANCES, chain := [] }
    "Master" [] bcG rfl (by rfl)
  obtain ⟨⟨block, hch, hd, hp⟩, hb, ho⟩ := h
  refine ⟨?_, ?_, hb, ho "Alice" (by decide)⟩
  · rw [hch, List.map_singleton, hd]
  · rw [hch, List.map_singleton, hp]

/-- Counterexample to C8 as stated: the genesis call does mutate the
ledger — the unconditional miner reward raises Master from 150 to 160. -/
theorem c8_counterexample :
    Blockchain.new shaW digGen 3 BALANCES = .ok bcG ∧
    acc_bal_of BALANCES "Master" = 150 ∧
    acc_bal_of bcG.balances "Master" = 160 ∧ (160 : Nat) ≠ 150 := by
  exact ⟨rfl, rfl, rfl, by decide⟩

/-- C5 evidence: calling `add_block` with all 8 reference hashes consumed
reaches `HASHES.get(8).unwrap()` and panics — but only after the
coinbase transaction has already debited Master and created Bob, so the
abort is neither the explicit `ReferenceHashExhausted` error nor
state-preserving. -/
theorem c5_exhaustion_panics :
    add_block shaW digGen 3 bc8 "Bob" [] =
      .error (.unwrapNone,
        { balances := [{ addr := "Master", bal := 140 }, { addr := "Bob", bal := 10 }],
          chain := List.replicate 8 dummyB }) ∧
    [{ addr := ("Master" : String), bal := (140 : Nat) },
     { addr := "Bob", bal := 10 }] ≠ bc8.balances := by
  exact ⟨by rfl, by decide⟩

/-- A serialization is never empty (it ends in the `;` terminator), so
appending it to the payload changes the payload. -/
theorem to_str_append_ne (sha : String → String) (pay : String)
    (t : Trasaction) : pay ++ t.to_str sha ≠ pay := by
  intro h
  have hlen : (pay ++ t.to_str sha).length = pay.length := by rw [h]
  rw [String.length_append] at hlen
  have h1 : (t.to_str sha).length = 0 := by omega
  have h2 : t.to_str sha
      = ((((((((((("" ++ toString t.timestamp).push ':') ++ t.from_).push ':')
          ++ t.to_).push ':') ++ toString t.value).push ':') ++ t.data).push ':')
          ++ t.hash sha).push ';' := rfl
  rw [h2, String.length_push] at h1
  omega

/-- `update_bal` is the identity when the address is present and the
mutation fixes every member. -/
theorem update_bal_found_id (addr : String) (b : Option Nat) (r : Bool) :
    ∀ bs : List Account, (∀ a : Account, a ∈ bs → mutate_bal b r a = a) →
      (bs.find? (fun x => x.addr == addr)).isSome = true →
      update_bal bs addr b r = bs := by
  intro bs
  induction bs with
  | nil => intro _ hs; simp [List.find?] at hs
  | cons a as ih =>
    intro hid hs
    rw [update_bal]
    by_cases ha : (a.addr == addr) = true
    · rw [if_pos ha, hid a (List.mem_cons_self a as)]
    · rw [if_neg ha]
      rw [find_addr_cons, if_neg ha] at hs
      rw [ih (fun x hx => hid x (List.mem_cons_of_mem a hx)) hs]

/-- C10: the solvency test and the transferred amounts both use the `u8`
cast `value % 256`: a transaction is admitted (its serialization is
appended to the payload) exactly when the sender balance is at least
`value % 256`, and when `value % 256 = 0` (e.g. `value = 256`) an
admitted transfer between existing accounts moves nothing. -/
theorem c10_u8_cast (sha : String → String) (bs : List Account)
    (pay : String) (t : Trasaction) (hb : balsLt bs = true) :
    ((applyTran sha bs pay t).2 = pay ++ t.to_str sha
      ↔ t.value % 256 ≤ acc_bal_of bs t.from_) ∧
    (t.value % 256 = 0 →
      (bs.find? (fun x => x.addr == t.from_)).isSome = true →
      (bs.find? (fun x => x.addr == t.to_)).isSome = true →
      (applyTran sha bs pay t).1 = bs) := by
  constructor
  · constructor
    · intro h2
      by_contra hlt
      have hc : acc_bal_of bs t.from_ < t.value % 256 := by omega
      rw [applyTran_skip sha bs pay t hc] at h2
      exact to_str_append_ne sha pay t h2.symm
    · intro hge
      rw [applyTran_apply sha bs pay t (by omega)]
  · intro hv hss hrs
    rw [applyTran_apply sha bs pay t (by omega)]
    have hid : ∀ mb : Bool, ∀ a : Account, a ∈ bs →
        mutate_bal (some (t.value % 256)) mb a = a := by
      intro mb a hmem
      have halt : a.bal < 256 := by
        have := List.all_eq_true.mp hb a hmem
        simpa using this
      have : (mutate_bal (some (t.value % 256)) mb a).bal = a.bal := by
        cases mb
        · show (a.bal + t.value % 256) % 256 = a.bal
          omega
        · show (a.bal + 256 - t.value % 256) % 256 = a.bal
          omega
      calc mutate_bal (some (t.value % 256)) mb a
          = { mutate_bal (some (t.value % 256)) mb a with bal := a.bal } := by
            rw [← this]
        _ = a := rfl
    show update_bal (update_bal bs t.from_ (some (t.value % 256)) true) t.to_
      (some (t.value % 256)) false = bs
    rw [update_bal_found_id t.from_ (some (t.value % 256)) true bs
      (hid true) hss]
    exact update_bal_found_id t.to_ (some (t.value % 256)) false bs
      (hid false) hrs

/-- Witness for C10 at a concrete input: a transfer of `value = 256`
between existing accounts is admitted against a balance of 20 (since
`256 % 256 = 0`) and moves nothing. -/
theorem c10_witness :
    ((applyTran shaW [{ addr := "A", bal := 20 }, { addr := "B", bal := 5 }] ""
        { timestamp := 1, from_ := "A", to_ := "B", value := 256, data := "" }).2
      = "" ++ Trasaction.to_str shaW
          { timestamp := 1, from_ := "A", to_ := "B", value := 256, data := "" }
      ↔ 256 % 256 ≤ acc_bal_of
          [{ addr := "A", bal := 20 }, { addr := "B", bal := 5 }] "A") ∧
    (applyTran shaW [{ addr := "A", bal := 20 }, { addr := "B", bal := 5 }] ""
        { timestamp := 1, from_ := "A", to_ := "B", value := 256, data := "" }).1
      = [{ addr := "A", bal := 20 }, { addr := "B", bal := 5 }] := by
  have h := c10_u8_cast shaW
    [{ addr := "A", bal := 20 }, { addr := "B", bal := 5 }] ""
    { timestamp := 1, from_ := "A", to_ := "B", value := 256, data := "" }
    (by decide)
  exact ⟨h.1, h.2 (by decide) (by decide) (by decide)⟩

/-- Counterexample to C4 as stated: a transaction with `value = 257`
exceeding the sender balance 20 is nevertheless applied (the check uses
`257 % 256 = 1`): the sender is debited and the serialization lands in
the payload. -/
theorem c4_counterexample :
    (20 : Nat) < 257 ∧
    applyTran shaW [{ addr := "A", bal := 20 }, { addr := "B", bal := 5 }] ""
        { timestamp := 1, from_ := "A", to_ := "B", value := 257, data := "d" }
      = ([{ addr := "A", bal := 19 }, { addr := "B", bal := 6 }], "1:A:B:257:d:H;") ∧
    ([{ addr := "A", bal := 19 }, { addr := "B", bal := 6 }] : List Account)
      ≠ ([{ addr := "A", bal := 20 }, { addr := "B", bal := 5 }] : List Account) := by
  exact ⟨by decide, by rfl, by decide⟩

/-- C4 (amended): a transaction whose `u8`-cast value `value % 256`
exceeds the sender balance at its processing point is skipped entirely:
the rest of the batch computes exactly as if the transaction were absent
(so it mutates no balances, contributes nothing to the payload, and
processing continues with the next transaction). -/
theorem c4_underfunded_skipped (sha : String → String) (bs : List Account)
    (pay : String) (pre post : List Trasaction) (t : Trasaction)
    (hskip : acc_bal_of (processTxns sha bs pay pre).1 t.from_ < t.value % 256) :
    processTxns sha bs pay (pre ++ t :: post)
      = processTxns sha bs pay (pre ++ post) := by
  induction pre generalizing bs pay with
  | nil =>
    simp only [List.nil_append, processTxns]
    rw [applyTran_skip sha bs pay t hskip]
  | cons u pre ih =>
    simp only [List.cons_append, processTxns]
    simp only [processTxns] at hskip
    exact ih _ _ hskip

/-- Witness for C4: with Alice holding 20, a transfer of 21 placed
between two funded transfers drops out of the batch entirely. -/
theorem c4_witness :
    acc_bal_of (processTxns shaW BALANCES "" [txW21pre]).1 "Alice" < 21 % 256 ∧
    processTxns shaW BALANCES "" [txW21pre, txW21, txW21post]
      = processTxns shaW BALANCES "" [txW21pre, txW21post] := by
  refine ⟨by decide, ?_⟩
  exact c4_underfunded_skipped shaW BALANCES "" [txW21pre] [txW21post] txW21
    (by decide)

/-- Counterexample to C3 as stated: an applied transfer of 7 to an
account that does not exist yet credits the fixed bootstrap balance 10,
not the transferred value, and the corresponding whole `add_block` call
raises the total by 13, not by the reward 10. -/
theorem c3_counterexample :
    acc_bal_of BALANCES "Alice" = 20 ∧ (7 : Nat) ≤ 20 ∧
    acc_bal_of BALANCES "Bob" = 0 ∧
    acc_bal_of (applyTran shaW BALANCES "" txC3).1 "Bob" = 10 ∧
    (10 : Nat) ≠ 0 + 7 ∧
    add_block shaW digB1 3 bcC3 "Bob" [txC3] = .ok bcC3r ∧
    totalBal bcC3r.balances = 183 ∧ totalBal bcC3.balances = 170 ∧
    (183 : Nat) ≠ 170 + 10 := by
  exact ⟨rfl, by decide, rfl, by rfl, by decide, by rfl, by rfl, rfl, by decide⟩

/-- C3 (amended): (a) an applied transaction between distinct existing
accounts debits the sender by exactly `value % 256` and credits the
receiver by it modulo 256; (b) a non-genesis `add_block` in which every
applied transaction (coinbase included) has an existing sender and
receiver, no credit leaves `u8` range, and the miner reward does not
overflow, raises the total of all balances by exactly the reward 10. -/
theorem c3_conservation :
    (∀ sha : String → String, ∀ bs : List Account, ∀ pay : String,
      ∀ t : Trasaction, ∀ sa ra : Account,
      balsLt bs = true →
      bs.find? (fun x => x.addr == t.from_) = some sa →
      bs.find? (fun x => x.addr == t.to_) = some ra →
      t.from_ ≠ t.to_ →
      t.value % 256 ≤ sa.bal →
      acc_bal_of (applyTran sha bs pay t).1 t.from_ = sa.bal - t.value % 256 ∧
      acc_bal_of (applyTran sha bs pay t).1 t.to_
        = (ra.bal + t.value % 256) % 256) ∧
    (∀ sha digest : String → String, ∀ fuel : Nat, ∀ bc : Blockchain,
      ∀ miner : String, ∀ txns : List Trasaction, ∀ bc2 : Blockchain,
      balsLt bc.balances = true →
      bc.chain ≠ [] →
      consOk sha bc.balances (txns ++ [coinbase miner]) = true →
      rewardOk (processTxns sha bc.balances "" (txns ++ [coinbase miner])).1
        miner = true →
      add_block sha digest fuel bc miner txns = .ok bc2 →
      totalBal bc2.balances = totalBal bc.balances + 10) := by
  constructor
  · intro sha bs pay t sa ra hb hsa hra hne hv
    exact applyTran_transfer sha bs pay t sa ra hsa hra hne hv
      (bal_lt_of_found bs t.from_ sa hsa hb)
  · intro sha digest fuel bc miner txns bc2 hb hne hcons hrw hadd
    obtain ⟨btc, block, hbtc, hblk, hbc⟩ :=
      add_block_ok_parts sha digest fuel bc miner txns bc2 hadd
    subst hbc
    show totalBal (update_bal (payloadBals sha bc miner txns).1 miner none false)
      = totalBal bc.balances + 10
    have hnz : bc.chain.length ≠ 0 := fun hz => hne (List.length_eq_zero.mp hz)
    have hlen : (bc.chain.length == 0) = false := beq_eq_false_iff_ne.mpr hnz
    have hpb : payloadBals sha bc miner txns
        = processTxns sha bc.balances "" (txns ++ [coinbase miner]) := by
      unfold payloadBals
      rw [hlen]
      rfl
    rw [hpb]
    obtain ⟨hsum, hlt2⟩ := totalBal_processTxns sha (txns ++ [coinbase miner])
      bc.balances "" hcons hb
    cases hm : (processTxns sha bc.balances "" (txns ++ [coinbase miner])).1.find?
        (fun x => x.addr == miner) with
    | none =>
      rw [totalBal_update_bal_missing miner none false _ hm, hsum]
    | some ma =>
      have e := totalBal_update_bal_found miner none false _ ma hm
      have hmlt : ma.bal + 10 < 256 := by
        unfold rewardOk at hrw
        rw [hm] at hrw
        exact of_decide_eq_true hrw
      have m : (mutate_bal none false ma).bal = (ma.bal + 10) % 256 := rfl
      rw [m] at e
      omega

/-- Witness for C3 (amended) at concrete inputs: Alice pays Bob 7 among
existing accounts, and the full block raises the total from 175 to 185. -/
theorem c3_witness :
    (acc_bal_of (applyTran shaW bcW.balances "" txW).1 "Alice" = 20 - 7 % 256 ∧
     acc_bal_of (applyTran shaW bcW.balances "" txW).1 "Bob"
       = (5 + 7 % 256) % 256) ∧
    totalBal bcW2.balances = totalBal bcW.balances + 10 := by
  constructor
  · exact c3_conservation.1 shaW bcW.balances "" txW
      ({ addr := "Alice", bal := 20 } : Account)
      ({ addr := "Bob", bal := 5 } : Account)
      (by decide) (by rfl) (by rfl) (by decide) (by decide)
  · exact c3_conservation.2 shaW digB1 3 bcW "Bob" [txW] bcW2
      (by decide) (by decide) (by decide) (by decide) (by rfl)

end SimpleBlockchain
